import Mathlib

/-!
Shallow embedding of the Paillier e-voting demo in `src/main.rs` of
`datasec_evoting`, together with proofs about its specification.

The Rust source works on `U128` (`crypto_bigint`) values with checked
arithmetic that panics on overflow/underflow, Montgomery-form modular
exponentiation under the odd modulus `N^2`, and a handful of partial
library operations (`to_odd`, `to_nz`, `inv_mod`).  Machine integers are
modelled as `ℕ` with explicit `2 ^ 128` capacity checks; every panicking
operation is modelled as an `Except`-valued function whose error names the
panic it stands for.
-/

set_option maxRecDepth 8000

deriving instance DecidableEq for Except

namespace Evoting

/-- The distinct abort conditions of the source: each constructor stands for
one `expect`/`assert!` panic message (or, for `encodingOverflow`,
the `assert!` on the vote shift, and for `overflow`, the downcast
assert in the tally loop). -/
inductive VoteError where
  | arithmeticOverflow
  | invalidModulus
  | underflow
  | zeroModulus
  | noInverse
  | encodingOverflow
  | logOfZero
  | overflow
deriving DecidableEq

/-- Width of the fixed-size integer type `UintType = U128` of the source. -/
def UintBits : ℕ := 128

/-- Models `CheckedAdd::checked_add` on `U128`: the sum, if it fits 128 bits. -/
def checked_add (a b : ℕ) : Except VoteError ℕ :=
  if a + b < 2 ^ 128 then .ok (a + b) else .error .arithmeticOverflow

/-- Models `CheckedMul::checked_mul` on `U128`: the product, if it fits 128 bits. -/
def checked_mul (a b : ℕ) : Except VoteError ℕ :=
  if a * b < 2 ^ 128 then .ok (a * b) else .error .arithmeticOverflow

/-- Models `checked_square` on `U128`. -/
def checked_square (a : ℕ) : Except VoteError ℕ :=
  checked_mul a a

/-- Models `CheckedSub::checked_sub` on `U128`: the difference, unless it underflows. -/
def checked_sub (a b : ℕ) : Except VoteError ℕ :=
  if b ≤ a then .ok (a - b) else .error .underflow

/-- Models `Uint::to_odd` (the `expect` on line 85-87 / 230-232): succeeds
exactly on odd values. -/
def to_odd (a : ℕ) : Except VoteError ℕ :=
  if a % 2 = 1 then .ok a else .error .invalidModulus

/-- Models `Uint::to_nz`: succeeds exactly on nonzero values. -/
def to_nz (a : ℕ) : Except VoteError ℕ :=
  if a ≠ 0 then .ok a else .error .zeroModulus

/-- Models `Uint::inv_mod`: the multiplicative inverse of `a` modulo `n`
when one exists (the canonical representative below `n`), an error
otherwise.  The search formulation returns exactly the residue `x < n`
with `a * x ≡ 1 (mod n)`; such an `x` exists iff `gcd a n = 1` (for the
moduli `n > 1` the program uses). -/
def inv_mod (a n : ℕ) : Except VoteError ℕ :=
  match (List.range n).find? (fun x => a * x % n = 1) with
  | some x => .ok x
  | none => .error .noInverse

/-- Models `AuthorityPrivateKey::get_phi_n`: `(p - 1) * (q - 1)` with the
source's underflow/overflow checks. -/
def get_phi_n (p q : ℕ) : Except VoteError ℕ :=
  match checked_sub p 1 with
  | .error e => .error e
  | .ok p_minus_one =>
    match checked_sub q 1 with
    | .error e => .error e
    | .ok q_minus_one => checked_mul p_minus_one q_minus_one

/-- Source constant `static N_VOTERS: usize = 16`. -/
def N_VOTERS : ℕ := 16

/-- Source constant `static N_CANDIDATES: usize = 3`. -/
def N_CANDIDATES : ℕ := 3

/-- Source constant `static CHOSEN_CANDIDATE_IDX: u32 = 0`. -/
def CHOSEN_CANDIDATE_IDX : ℕ := 0

/-- Source constant `static N: UintType = 14351`, the hard-coded public modulus. -/
def N : ℕ := 14351

/-- Fuel-driven floor base-2 logarithm (structural recursion so that the
kernel can evaluate it). -/
def ilog2_fuel : ℕ → ℕ → ℕ
  | 0, _ => 0
  | fuel + 1, n => if 2 ≤ n then ilog2_fuel fuel (n / 2) + 1 else 0

/-- Models `usize::ilog2` (`per_candidate_bits = N_VOTERS.ilog2()`), the
floor of `log2`; the source panics on input `0`, which the callers below
guard explicitly. -/
def ilog2 (n : ℕ) : ℕ :=
  ilog2_fuel n n

/-- The bit length (number of binary digits) of a positive integer:
`ilog2 n + 1`.  Two primes of equal bit length in the sense of the spec
are two primes with the same number of binary digits. -/
def bit_length (n : ℕ) : ℕ :=
  ilog2 n + 1

/-- The vote-encoding block of `main` (lines 72-79): `bits = ilog2(voters)`,
`shift = candidate_idx * bits`, `assert!(shift <= bits * candidates)`,
result `1 << shift`.  The `ilog2` panic on zero voters is the
`logOfZero` error. -/
def encode (candidate_idx n_voters n_candidates : ℕ) : Except VoteError ℕ :=
  if n_voters = 0 then .error .logOfZero else
  let per_candidate_bits := ilog2 n_voters
  let vote_shift := candidate_idx * per_candidate_bits
  if vote_shift ≤ per_candidate_bits * n_candidates then .ok (1 <<< vote_shift)
  else .error .encodingOverflow

/-- The encryption block of `main` (lines 82-109):
`c = (N+1)^m * r^N mod N^2`, computed in Montgomery form after the
`checked_square`, `to_odd` and `checked_add` guards. -/
def encrypt (vote_message r n : ℕ) : Except VoteError ℕ :=
  match checked_square n with
  | .error e => .error e
  | .ok n_squared =>
    match to_odd n_squared with
    | .error e => .error e
    | .ok n_squared_odd =>
      match checked_add n 1 with
      | .error e => .error e
      | .ok n_plus_one =>
        .ok (n_plus_one ^ vote_message % n_squared_odd *
          (r ^ n % n_squared_odd) % n_squared_odd)

/-- Function `decrypt` of the source (lines 223-262): `d1 = c^phi mod N^2`,
`d2 = ((d1 - 1) / N) mod N`, `d3 = phi^(-1) mod N`, result `d2*d3 mod N`,
with every checked operation of the source in source order. -/
def decrypt (ciphertext n phi_n : ℕ) : Except VoteError ℕ :=
  match checked_square n with
  | .error e => .error e
  | .ok n_squared =>
    match to_odd n_squared with
    | .error e => .error e
    | .ok n_squared_odd =>
      let d1 := ciphertext ^ phi_n % n_squared_odd
      match to_nz n with
      | .error e => .error e
      | .ok n_nonzero =>
        match checked_sub d1 1 with
        | .error e => .error e
        | .ok d1_minus_one =>
          let d2 := d1_minus_one / n_nonzero % n_nonzero
          match inv_mod phi_n n with
          | .error e => .error e
          | .ok d3 => .ok (d2 * d3 % n_nonzero)

/-- The aggregation fold of `main` (lines 181-184):
`vote_stack.iter().fold(ONE, |acc, vote| acc.mul_mod(vote, n_squared))`. -/
def aggregate (vote_stack : List ℕ) (n_squared_nz : ℕ) : ℕ :=
  vote_stack.foldl (fun acc vote => acc * vote % n_squared_nz) 1

/-- One submission step of the collection loop (lines 172-178): the
ciphertext is pushed onto the stack, and then its individual plaintext is
decrypted for display.  The first component is the stack contents after
the push (hence the stack at the moment `decrypt` runs, and at abort if
it fails); the second is the decryption outcome. -/
def submit (vote_stack : List ℕ) (c n phi_n : ℕ) : List ℕ × Except VoteError ℕ :=
  (vote_stack ++ [c], decrypt c n phi_n)

/-- The per-candidate extraction loop of `main` (lines 194-208): the
plaintext is truncated to its low 64-bit word, the truncation is checked
by re-widening (`assert!` on lines 195-198), and each candidate's count is
`(small >> (bits * i)) & (N_VOTERS - 1)`. -/
def decode (m_total n_voters n_candidates : ℕ) : Except VoteError (List ℕ) :=
  if n_voters = 0 then .error .logOfZero else
  let m_total_small := m_total % 2 ^ 64
  if m_total = m_total_small then
    let per_candidate_bits := ilog2 n_voters
    let mask := n_voters - 1
    .ok ((List.range n_candidates).map fun i =>
      m_total_small >>> (per_candidate_bits * i) &&& mask)
  else .error .overflow

/-- The reconciliation verdict printed at the end of `main` (lines 210-220). -/
inductive Reconciliation where
  | surplus : ℕ → Reconciliation
  | exact : Reconciliation
  | deficit : ℕ → Reconciliation
deriving DecidableEq

/-- The reconciliation comparison of `main` (lines 210-220): decoded vote
total against ballot count. -/
def reconcile (votes n_voters : ℕ) : Reconciliation :=
  if votes > n_voters then .surplus (votes - n_voters)
  else if votes = n_voters then .exact
  else .deficit (n_voters - votes)

/-- The finalization pipeline of `main` (lines 181-220): aggregate the
stack modulo `N^2`, decrypt the aggregate, decode the per-candidate
counts, and reconcile their sum against the number of ballots. -/
def finalize (vote_stack : List ℕ) (n phi_n n_voters n_candidates : ℕ) :
    Except VoteError (List ℕ × Reconciliation) :=
  match checked_square n with
  | .error e => .error e
  | .ok n_squared =>
    match to_nz n_squared with
    | .error e => .error e
    | .ok n_squared_nz =>
      let product := aggregate vote_stack n_squared_nz
      match decrypt product n phi_n with
      | .error e => .error e
      | .ok m_total =>
        match decode m_total n_voters n_candidates with
        | .error e => .error e
        | .ok votes => .ok (votes, reconcile votes.sum vote_stack.length)

/-! ## Helper lemmas -/

lemma ilog2_fuel_bounds : ∀ fuel n : ℕ, 0 < n → n ≤ fuel →
    2 ^ ilog2_fuel fuel n ≤ n ∧ n < 2 ^ (ilog2_fuel fuel n + 1) := by
  intro fuel
  induction fuel with
  | zero => intro n h1 h2; omega
  | succ f ih =>
    intro n h1 h2
    by_cases h : 2 ≤ n
    · have hn2 : 0 < n / 2 := by omega
      have hle : n / 2 ≤ f := by omega
      obtain ⟨ha, hb⟩ := ih (n / 2) hn2 hle
      simp only [ilog2_fuel, if_pos h]
      constructor
      · rw [pow_succ]
        omega
      · rw [pow_succ, pow_succ] at *
        omega
    · simp only [ilog2_fuel, if_neg h]
      simp only [pow_zero, pow_one]
      omega

lemma ilog2_bounds {n : ℕ} (h : 0 < n) :
    2 ^ ilog2 n ≤ n ∧ n < 2 ^ (ilog2 n + 1) :=
  ilog2_fuel_bounds n n h le_rfl

lemma ilog2_eq_log {n : ℕ} (h : 0 < n) : ilog2 n = Nat.log 2 n := by
  obtain ⟨ha, hb⟩ := ilog2_bounds h
  exact (Nat.log_eq_of_pow_le_of_lt_pow ha hb).symm

lemma succ_pow_modEq (n m : ℕ) : (n + 1) ^ m ≡ 1 + m * n [MOD n * n] := by
  induction m with
  | zero => simpa using Nat.ModEq.refl 1
  | succ k ih =>
    have h1 : (n + 1) ^ (k + 1) = (n + 1) ^ k * (n + 1) := by ring
    have h2 : (1 + k * n) * (n + 1) = 1 + (k + 1) * n + k * (n * n) := by ring
    have h3 : (n + 1) ^ k * (n + 1) ≡ (1 + k * n) * (n + 1) [MOD n * n] :=
      Nat.ModEq.mul_right _ ih
    have h4 : 1 + (k + 1) * n + k * (n * n) ≡ 1 + (k + 1) * n + 0 [MOD n * n] :=
      Nat.ModEq.add_left _ ((Nat.modEq_zero_iff_dvd).mpr ⟨k, mul_comm _ _⟩)
    calc (n + 1) ^ (k + 1) = (n + 1) ^ k * (n + 1) := h1
      _ ≡ (1 + k * n) * (n + 1) [MOD n * n] := h3
      _ = 1 + (k + 1) * n + k * (n * n) := h2
      _ ≡ 1 + (k + 1) * n + 0 [MOD n * n] := h4
      _ = 1 + (k + 1) * n := by ring

lemma totient_sq {p q : ℕ} (hp : p.Prime) (hq : q.Prime) (hpq : p ≠ q) :
    ((p * q) * (p * q)).totient = (p * q) * ((p - 1) * (q - 1)) := by
  have hcop : Nat.Coprime (p ^ 2) (q ^ 2) :=
    Nat.Coprime.pow 2 2 ((Nat.coprime_primes hp hq).mpr hpq)
  have h1 : (p * q) * (p * q) = p ^ 2 * q ^ 2 := by ring
  rw [h1, Nat.totient_mul hcop, Nat.totient_prime_pow hp (by norm_num),
    Nat.totient_prime_pow hq (by norm_num)]
  norm_num
  ring

lemma inv_mod_ok {a n : ℕ} (hn : 1 < n) (h : Nat.gcd a n = 1) :
    ∃ v, inv_mod a n = .ok v ∧ a * v % n = 1 ∧ v < n := by
  haveI : NeZero n := ⟨by omega⟩
  have hcop : Nat.Coprime a n := h
  have hxlt : ((a : ZMod n)⁻¹).val < n := ZMod.val_lt _
  have hmod : a * ((a : ZMod n)⁻¹).val % n = 1 := by
    have h1 : ((a * ((a : ZMod n)⁻¹).val : ℕ) : ZMod n) = ((1 : ℕ) : ZMod n) := by
      push_cast
      rw [ZMod.natCast_rightInverse ((a : ZMod n)⁻¹)]
      simpa using ZMod.coe_mul_inv_eq_one a hcop
    have h2 : a * ((a : ZMod n)⁻¹).val ≡ 1 [MOD n] :=
      (ZMod.natCast_eq_natCast_iff _ _ _).mp h1
    have h3 := h2
    unfold Nat.ModEq at h3
    rwa [Nat.mod_eq_of_lt hn] at h3
  have hsome : ((List.range n).find? (fun x => a * x % n = 1)).isSome := by
    rw [List.find?_isSome]
    exact ⟨_, List.mem_range.mpr hxlt, by simpa using hmod⟩
  obtain ⟨v, hv⟩ := Option.isSome_iff_exists.mp hsome
  refine ⟨v, ?_, ?_, ?_⟩
  · unfold inv_mod
    rw [hv]
  · simpa using List.find?_some hv
  · exact List.mem_range.mp (List.mem_of_find?_eq_some hv)

lemma inv_mod_ok_prop {a n v : ℕ} (h : inv_mod a n = .ok v) :
    a * v % n = 1 ∧ v < n := by
  unfold inv_mod at h
  cases hfind : (List.range n).find? (fun x => a * x % n = 1) with
  | none => rw [hfind] at h; exact absurd h (by simp)
  | some w =>
    rw [hfind] at h
    have hw : w = v := by simpa using h
    subst hw
    exact ⟨by simpa using List.find?_some hfind,
      List.mem_range.mp (List.mem_of_find?_eq_some hfind)⟩

lemma inv_mod_error_iff {a n : ℕ} (hn : 1 < n) :
    inv_mod a n = .error .noInverse ↔ Nat.gcd a n ≠ 1 := by
  constructor
  · intro he hg
    obtain ⟨v, hv, _, _⟩ := inv_mod_ok hn hg
    rw [he] at hv
    exact absurd hv (by simp)
  · intro hg
    unfold inv_mod
    cases hfind : (List.range n).find? (fun x => a * x % n = 1) with
    | none => rfl
    | some v =>
      exfalso
      apply hg
      have hp : a * v % n = 1 := by simpa using List.find?_some hfind
      have h1 : a * v ≡ 1 [MOD n] := by
        unfold Nat.ModEq
        rw [hp, Nat.mod_eq_of_lt hn]
      have h2 : (n : ℤ) ∣ (1 : ℤ) - (a * v : ℕ) := h1.dvd
      have h3 : ((Nat.gcd a n : ℕ) : ℤ) ∣ (1 : ℤ) := by
        have hga : ((Nat.gcd a n : ℕ) : ℤ) ∣ ((a * v : ℕ) : ℤ) := by
          exact_mod_cast (Nat.gcd_dvd_left a n).mul_right v
        have hgn : ((Nat.gcd a n : ℕ) : ℤ) ∣ (1 : ℤ) - ((a * v : ℕ) : ℤ) :=
          dvd_trans (by exact_mod_cast Nat.gcd_dvd_right a n) h2
        have := dvd_add hgn hga
        simpa using this
      have h4 : Nat.gcd a n ∣ 1 := by exact_mod_cast h3
      exact Nat.dvd_one.mp h4


lemma decrypt_ok_eq {c n phi v : ℕ} (hw : n * n < 2 ^ 128) (hodd : n * n % 2 = 1)
    (hnz : n ≠ 0) (hd1 : 1 ≤ c ^ phi % (n * n)) (hinv : inv_mod phi n = .ok v) :
    decrypt c n phi = .ok ((c ^ phi % (n * n) - 1) / n % n * v % n) := by
  unfold decrypt checked_square checked_mul to_odd to_nz checked_sub
  rw [if_pos hw]
  simp only [if_pos hodd, if_pos hnz, if_pos hd1, hinv, ne_eq, hnz, not_false_iff, if_pos]

lemma decrypt_underflow_eq {c n phi : ℕ} (hw : n * n < 2 ^ 128) (hodd : n * n % 2 = 1)
    (hnz : n ≠ 0) (hd1 : c ^ phi % (n * n) = 0) :
    decrypt c n phi = .error .underflow := by
  unfold decrypt checked_square checked_mul to_odd to_nz checked_sub
  rw [if_pos hw]
  simp only [if_pos hodd, hd1, ne_eq, hnz, not_false_iff, if_pos]
  norm_num

lemma decrypt_noInv_eq {c n phi : ℕ} (hw : n * n < 2 ^ 128) (hodd : n * n % 2 = 1)
    (hnz : n ≠ 0) (hd1 : 1 ≤ c ^ phi % (n * n))
    (hinv : inv_mod phi n = .error .noInverse) :
    decrypt c n phi = .error .noInverse := by
  unfold decrypt checked_square checked_mul to_odd to_nz checked_sub
  rw [if_pos hw]
  simp only [if_pos hodd, if_pos hd1, hinv, ne_eq, hnz, not_false_iff, if_pos]

/-- Core Paillier decryption correctness: any value congruent to
`(N+1)^m * r^N` modulo `N^2` decrypts to `m`, for a key built from two
distinct odd primes whose totient is invertible modulo `N`. -/
lemma decrypt_of_congruent {p q m r c : ℕ}
    (hp : p.Prime) (hq : q.Prime) (hpq : p ≠ q) (hp2 : p ≠ 2) (hq2 : q ≠ 2)
    (hw : p * q * (p * q) < 2 ^ 128)
    (hco : Nat.gcd ((p - 1) * (q - 1)) (p * q) = 1)
    (hm : m < p * q) (hr : Nat.gcd r (p * q) = 1)
    (hc : c ≡ (p * q + 1) ^ m * r ^ (p * q) [MOD (p * q) * (p * q)]) :
    decrypt c (p * q) ((p - 1) * (q - 1)) = .ok m := by
  set Nn := p * q with hNn
  set phi := (p - 1) * (q - 1) with hphi
  have hp3 : 3 ≤ p := by
    rcases hp.two_le.lt_or_eq with h | h
    · omega
    · omega
  have hq3 : 3 ≤ q := by
    rcases hq.two_le.lt_or_eq with h | h
    · omega
    · omega
  have hN1 : 1 < Nn := by
    calc 1 < 3 * 3 := by norm_num
    _ ≤ p * q := Nat.mul_le_mul hp3 hq3
  have hoddp : p % 2 = 1 := Nat.odd_iff.mp (hp.odd_of_ne_two hp2)
  have hoddq : q % 2 = 1 := Nat.odd_iff.mp (hq.odd_of_ne_two hq2)
  have hoddN : Nn % 2 = 1 := by
    rw [hNn, Nat.mul_mod, hoddp, hoddq]
  have hoddM : Nn * Nn % 2 = 1 := by
    rw [Nat.mul_mod, hoddN]
  -- the exponentiated ciphertext
  have step1 : c ^ phi ≡ ((Nn + 1) ^ m * r ^ Nn) ^ phi [MOD Nn * Nn] := hc.pow phi
  have step2 : ((Nn + 1) ^ m * r ^ Nn) ^ phi = (Nn + 1) ^ (m * phi) * r ^ (Nn * phi) := by
    rw [mul_pow, ← pow_mul, ← pow_mul]
  have binom : (Nn + 1) ^ (m * phi) ≡ 1 + m * phi * Nn [MOD Nn * Nn] :=
    succ_pow_modEq Nn (m * phi)
  have heuler : r ^ (Nn * phi) ≡ 1 [MOD Nn * Nn] := by
    have htot : (Nn * Nn).totient = Nn * phi := by
      rw [hNn, hphi]
      exact totient_sq hp hq hpq
    have hcr : Nat.Coprime r (Nn * Nn) := (Nat.Coprime.mul_right hr hr : _)
    have := Nat.ModEq.pow_totient hcr
    rwa [htot] at this
  have step3 : c ^ phi ≡ (1 + m * phi * Nn) * 1 [MOD Nn * Nn] := by
    calc c ^ phi ≡ ((Nn + 1) ^ m * r ^ Nn) ^ phi [MOD Nn * Nn] := step1
      _ = (Nn + 1) ^ (m * phi) * r ^ (Nn * phi) := step2
      _ ≡ (1 + m * phi * Nn) * 1 [MOD Nn * Nn] := binom.mul heuler
  set t := m * phi % Nn with ht
  have step4 : (1 + m * phi * Nn) ≡ 1 + t * Nn [MOD Nn * Nn] := by
    have hsplit : m * phi = Nn * (m * phi / Nn) + t := (Nat.div_add_mod _ _).symm
    have : 1 + m * phi * Nn = 1 + t * Nn + (Nn * Nn) * (m * phi / Nn) := by
      calc 1 + m * phi * Nn = 1 + (Nn * (m * phi / Nn) + t) * Nn := by rw [← hsplit]
        _ = 1 + t * Nn + (Nn * Nn) * (m * phi / Nn) := by ring
    rw [this]
    exact (Nat.ModEq.add_left _ (Nat.modEq_zero_iff_dvd.mpr ⟨m * phi / Nn, rfl⟩)).trans
      (by simpa using Nat.ModEq.refl (1 + t * Nn))
  have htlt : t < Nn := Nat.mod_lt _ (by omega)
  have hbound : 1 + t * Nn < Nn * Nn := by
    have h1 : t + 1 ≤ Nn := htlt
    calc 1 + t * Nn < Nn + t * Nn := by omega
      _ = (t + 1) * Nn := by ring
      _ ≤ Nn * Nn := Nat.mul_le_mul_right _ h1
  have hd1 : c ^ phi % (Nn * Nn) = 1 + t * Nn := by
    have := (step3.trans (by simpa using step4)) 
    unfold Nat.ModEq at this
    rw [this]
    exact Nat.mod_eq_of_lt hbound
  -- the inverse of phi
  obtain ⟨v, hv, hvmod, hvlt⟩ := inv_mod_ok hN1 hco
  -- final computation
  have hres : (1 + t * Nn - 1) / Nn % Nn * v % Nn = m := by
    have h1 : (1 + t * Nn - 1) = t * Nn := by omega
    have h2 : t * Nn / Nn = t := Nat.mul_div_cancel t (by omega : 0 < Nn)
    have h3 : t % Nn = t := Nat.mod_eq_of_lt htlt
    rw [h1, h2, h3]
    -- t * v ≡ m [MOD Nn] via ZMod
    haveI : NeZero Nn := ⟨by omega⟩
    have hz : ((t * v : ℕ) : ZMod Nn) = ((m : ℕ) : ZMod Nn) := by
      have ht2 : ((t : ℕ) : ZMod Nn) = ((m * phi : ℕ) : ZMod Nn) :=
        (ZMod.natCast_eq_natCast_iff _ _ _).mpr (Nat.mod_modEq (m * phi) Nn)
      have hv2 : ((phi * v : ℕ) : ZMod Nn) = ((1 : ℕ) : ZMod Nn) := by
        apply (ZMod.natCast_eq_natCast_iff _ _ _).mpr
        unfold Nat.ModEq
        rw [hvmod, Nat.mod_eq_of_lt hN1]
      push_cast at ht2 hv2 ⊢
      rw [ht2]
      calc (m : ZMod Nn) * phi * v = m * (phi * v) := by ring
        _ = m * 1 := by rw [hv2]
        _ = m := by ring
    have := congrArg ZMod.val hz
    rwa [ZMod.val_natCast, ZMod.val_natCast, Nat.mod_eq_of_lt hm] at this
  rw [decrypt_ok_eq hw hoddM (by omega) (by rw [hd1]; omega) hv, hd1, hres]


lemma encrypt_ok_eq {m r n : ℕ} (hw : n * n < 2 ^ 128) (hodd : n * n % 2 = 1) :
    encrypt m r n = .ok ((n + 1) ^ m % (n * n) * (r ^ n % (n * n)) % (n * n)) := by
  have hadd : n + 1 < 2 ^ 128 := by
    rcases le_or_lt n 1 with h | h
    · calc n + 1 ≤ 2 := by omega
        _ < 2 ^ 128 := by norm_num
    · calc n + 1 ≤ n * n := by nlinarith
        _ < 2 ^ 128 := hw
  unfold encrypt checked_square checked_mul to_odd checked_add
  rw [if_pos hw]
  simp only [if_pos hodd, if_pos hadd]

lemma encrypt_congruent {m r n c : ℕ} (h : encrypt m r n = .ok c) :
    c ≡ (n + 1) ^ m * r ^ n [MOD n * n] := by
  unfold encrypt checked_square checked_mul to_odd checked_add at h
  by_cases hw : n * n < 2 ^ 128
  · rw [if_pos hw] at h
    by_cases hodd : n * n % 2 = 1
    · simp only [if_pos hodd] at h
      by_cases hadd : n + 1 < 2 ^ 128
      · simp only [if_pos hadd] at h
        have hc : c = (n + 1) ^ m % (n * n) * (r ^ n % (n * n)) % (n * n) := by
          exact (Except.ok.inj h).symm
        rw [hc, ← Nat.mul_mod]
        exact Nat.mod_modEq _ _
      · simp only [if_neg hadd] at h
        cases h
    · simp only [if_neg hodd] at h
      cases h
  · rw [if_neg hw] at h
    cases h

lemma get_phi_n_ok {p q phi : ℕ} (h : get_phi_n p q = .ok phi) :
    phi = (p - 1) * (q - 1) := by
  unfold get_phi_n checked_sub checked_mul at h
  by_cases hp : 1 ≤ p
  · rw [if_pos hp] at h
    by_cases hq : 1 ≤ q
    · rw [if_pos hq] at h
      by_cases hm : (p - 1) * (q - 1) < 2 ^ 128
      · simp only [if_pos hm] at h
        exact (Except.ok.inj h).symm
      · simp only [if_neg hm] at h
        cases h
    · rw [if_neg hq] at h
      cases h
  · rw [if_neg hp] at h
    cases h

lemma foldl_mul_mod_perm {M : ℕ} {l1 l2 : List ℕ} (h : l1.Perm l2) :
    ∀ a : ℕ, l1.foldl (fun acc v => acc * v % M) a = l2.foldl (fun acc v => acc * v % M) a := by
  induction h with
  | nil => intro a; rfl
  | cons x h ih =>
    intro a
    simp only [List.foldl_cons]
    exact ih _
  | swap x y l =>
    intro a
    simp only [List.foldl_cons]
    have hkey : a * y % M * x % M = a * x % M * y % M := by
      rw [Nat.mod_mul_mod, Nat.mod_mul_mod, mul_assoc, mul_assoc, mul_comm y x]
    rw [hkey]
  | trans h1 h2 ih1 ih2 =>
    intro a
    rw [ih1, ih2]

lemma decrypt_one {n phi : ℕ} (hn : 1 < n) (hodd : n % 2 = 1)
    (hw : n * n < 2 ^ 128) (hco : Nat.gcd phi n = 1) :
    decrypt 1 n phi = .ok 0 := by
  have hoddM : n * n % 2 = 1 := by rw [Nat.mul_mod, hodd]
  have hM1 : 1 < n * n := by nlinarith
  have hd1 : (1 : ℕ) ^ phi % (n * n) = 1 := by
    rw [one_pow, Nat.mod_eq_of_lt hM1]
  obtain ⟨v, hv, _, _⟩ := inv_mod_ok hn hco
  rw [decrypt_ok_eq hw hoddM (by omega) (by omega) hv]
  rw [hd1]
  norm_num

lemma gcd_eq_one_of_mul_modEq {a d n : ℕ} (h : a * d ≡ 1 [MOD n]) :
    Nat.gcd a n = 1 := by
  have h2 : (n : ℤ) ∣ (1 : ℤ) - (a * d : ℕ) := h.dvd
  have hga : ((Nat.gcd a n : ℕ) : ℤ) ∣ ((a * d : ℕ) : ℤ) := by
    exact_mod_cast (Nat.gcd_dvd_left a n).mul_right d
  have hgn : ((Nat.gcd a n : ℕ) : ℤ) ∣ (1 : ℤ) - ((a * d : ℕ) : ℤ) :=
    dvd_trans (by exact_mod_cast Nat.gcd_dvd_right a n) h2
  have h3 : ((Nat.gcd a n : ℕ) : ℤ) ∣ (1 : ℤ) := by
    have := dvd_add hgn hga
    simpa using this
  exact Nat.dvd_one.mp (by exact_mod_cast h3)

lemma exists_inverse_iff {a n : ℕ} (hn : 1 < n) :
    (∃ d, a * d ≡ 1 [MOD n]) ↔ Nat.gcd a n = 1 := by
  constructor
  · rintro ⟨d, hd⟩
    exact gcd_eq_one_of_mul_modEq hd
  · intro hg
    obtain ⟨v, _, hvmod, _⟩ := inv_mod_ok hn hg
    refine ⟨v, ?_⟩
    unfold Nat.ModEq
    rw [hvmod, Nat.mod_eq_of_lt hn]


/-! ## Claim theorems -/

/-- C1 (counterexample): the round-trip claim quantified over arbitrary
products of two odd primes is false: for `p = 3`, `q = 7` (odd primes,
`N = 21`, `N^2` well within 128 bits), plaintext `0` and randomness `1`
(coprime to `N`), decryption of the encryption does not return the
plaintext — it aborts with `NoInverse`, because
`gcd(phi(N), N) = gcd(12, 21) = 3 ≠ 1`. -/
theorem round_trip_cex :
    Nat.Prime 3 ∧ Nat.Prime 7 ∧ (3 : ℕ) % 2 = 1 ∧ (7 : ℕ) % 2 = 1 ∧
    (3 * 7) * (3 * 7) < 2 ^ 128 ∧ (0 : ℕ) < 21 ∧ Nat.gcd 1 21 = 1 ∧
    get_phi_n 3 7 = .ok 12 ∧
    encrypt 0 1 21 = .ok 1 ∧
    decrypt 1 21 12 = .error .noInverse := by
  refine ⟨by norm_num, by norm_num, by decide, by decide, by decide,
    by decide, by decide, by decide, by decide, by decide⟩

/-- C1 (amended): for every plaintext `m` in `[0, N)` and randomness `r`
coprime to `N`, with `N = p*q` a product of two **distinct** odd primes,
`N^2` within the 128-bit width, **and `phi(N)` coprime to `N`**,
decrypting the encryption of `m` returns `m`. -/
theorem round_trip (p q m r phi c : ℕ)
    (hp : p.Prime) (hq : q.Prime) (hpq : p ≠ q) (hp2 : p ≠ 2) (hq2 : q ≠ 2)
    (hw : p * q * (p * q) < 2 ^ 128)
    (hphi : get_phi_n p q = .ok phi) (hco : Nat.gcd phi (p * q) = 1)
    (hm : m < p * q) (hr : Nat.gcd r (p * q) = 1)
    (hc : encrypt m r (p * q) = .ok c) :
    decrypt c (p * q) phi = .ok m := by
  have hphi2 : phi = (p - 1) * (q - 1) := get_phi_n_ok hphi
  subst hphi2
  exact decrypt_of_congruent hp hq hpq hp2 hq2 hw hco hm hr (encrypt_congruent hc)

/-- C1 (witness): concrete instance of the amended round trip at the key
`N = 5 * 7 = 35`, `phi = 24`, plaintext `1`, randomness `2`. -/
theorem round_trip_wit : decrypt 648 (5 * 7) 24 = .ok 1 :=
  round_trip 5 7 1 2 24 648 (by norm_num) (by norm_num) (by decide) (by decide)
    (by decide) (by decide) (by decide) (by decide) (by decide) (by decide) (by decide)

/-- C2: additive homomorphism.  For a key `N = p*q` built from two distinct
odd primes with `N^2` inside the 128-bit width and `phi(N)` invertible
modulo `N`, any plaintexts `m1, m2 < N` with `m1 + m2 < N` and randomness
values each coprime to `N`: decrypting the aggregate (the modular product
over `N^2`) of the two ciphertexts returns `(m1 + m2) mod N`. -/
theorem homomorphic_sum (p q m1 m2 r1 r2 phi c1 c2 : ℕ)
    (hp : p.Prime) (hq : q.Prime) (hpq : p ≠ q) (hp2 : p ≠ 2) (hq2 : q ≠ 2)
    (hw : p * q * (p * q) < 2 ^ 128)
    (hphi : get_phi_n p q = .ok phi) (hco : Nat.gcd phi (p * q) = 1)
    (hm1 : m1 < p * q) (hm2 : m2 < p * q) (hsum : m1 + m2 < p * q)
    (hr1 : Nat.gcd r1 (p * q) = 1) (hr2 : Nat.gcd r2 (p * q) = 1)
    (hc1 : encrypt m1 r1 (p * q) = .ok c1) (hc2 : encrypt m2 r2 (p * q) = .ok c2) :
    decrypt (aggregate [c1, c2] ((p * q) * (p * q))) (p * q) phi
      = .ok ((m1 + m2) % (p * q)) := by
  have hphi2 : phi = (p - 1) * (q - 1) := get_phi_n_ok hphi
  subst hphi2
  have hagg : aggregate [c1, c2] ((p * q) * (p * q)) = c1 * c2 % ((p * q) * (p * q)) := by
    show 1 * c1 % _ * c2 % _ = _
    rw [one_mul, Nat.mod_mul_mod]
  have hcong : aggregate [c1, c2] ((p * q) * (p * q)) ≡
      (p * q + 1) ^ (m1 + m2) * (r1 * r2) ^ (p * q) [MOD (p * q) * (p * q)] := by
    rw [hagg]
    have h1 := encrypt_congruent hc1
    have h2 := encrypt_congruent hc2
    calc c1 * c2 % ((p * q) * (p * q)) ≡ c1 * c2 [MOD (p * q) * (p * q)] :=
          Nat.mod_modEq _ _
      _ ≡ ((p * q + 1) ^ m1 * r1 ^ (p * q)) * ((p * q + 1) ^ m2 * r2 ^ (p * q))
          [MOD (p * q) * (p * q)] := h1.mul h2
      _ = (p * q + 1) ^ (m1 + m2) * (r1 * r2) ^ (p * q) := by
          rw [pow_add, mul_pow]
          ring
  have hr12 : Nat.gcd (r1 * r2) (p * q) = 1 := Nat.Coprime.mul hr1 hr2
  rw [Nat.mod_eq_of_lt hsum]
  exact decrypt_of_congruent hp hq hpq hp2 hq2 hw hco hsum hr12 hcong

/-- C2 (witness): concrete instance at the key `N = 35`, `phi = 24`:
`encrypt 1 2 35 = 648`, `encrypt 16 3 35 = 1202`, and the aggregate
`648 * 1202 mod 1225 = 1021` decrypts to `17 = (1 + 16) mod 35`. -/
theorem homomorphic_sum_wit :
    decrypt (aggregate [648, 1202] ((5 * 7) * (5 * 7))) (5 * 7) 24 = .ok ((1 + 16) % (5 * 7)) :=
  homomorphic_sum 5 7 1 16 2 3 24 648 1202 (by norm_num) (by norm_num) (by decide)
    (by decide) (by decide) (by decide) (by decide) (by decide) (by decide) (by decide)
    (by decide) (by decide) (by decide) (by decide) (by decide)


/-- C3 (counterexample): `decrypt` can fail even though `phi(N)` *does*
have a modular inverse mod `N`: at `c = 0`, `N = 35`, `phi = 24`
(`gcd(24, 35) = 1`), it aborts at the `d1 - 1` underflow check, so
"fails exactly when `phi(N)` has no inverse" is false, and the failure is
not `NoInverse`. -/
theorem decrypt_steps_cex :
    Nat.gcd 24 35 = 1 ∧ decrypt 0 35 24 = .error .underflow ∧
    decrypt 0 35 24 ≠ .error .noInverse := by
  refine ⟨by decide, by decide, by decide⟩

/-- C3 (amended): for every ciphertext `c`, modulus `N` and totient `phi`
such that the checks preceding the inverse all pass (`N^2` within width,
`N^2` odd, `N ≠ 0`, and `d1 = c^phi mod N^2 ≥ 1`), `decrypt` fails with
`NoInverse` exactly when `phi` has no modular inverse mod `N`; and when
the inverse `d3` exists, it returns `d2 * d3 mod N` with
`d2 = ((d1 - 1) / N) mod N` — exactly the spec's computation.  (When
`d1 = 0` it instead aborts at the underflow check.) -/
theorem decrypt_steps (c n phi : ℕ)
    (hw : n * n < 2 ^ 128) (hodd : n * n % 2 = 1) (hnz : n ≠ 0)
    (hd1 : 1 ≤ c ^ phi % (n * n)) :
    (decrypt c n phi = .error .noInverse ↔ ¬ ∃ d3, phi * d3 ≡ 1 [MOD n]) ∧
    (Nat.gcd phi n = 1 →
      ∃ d3, phi * d3 ≡ 1 [MOD n] ∧
        decrypt c n phi = .ok ((c ^ phi % (n * n) - 1) / n % n * d3 % n)) := by
  have hn1 : 1 < n := by
    rcases Nat.lt_or_ge n 2 with h | h
    · exfalso
      have hn0 : n = 1 := by omega
      subst hn0
      rw [Nat.mod_one] at hd1
      omega
    · omega
  constructor
  · constructor
    · intro he hex
      have hg : Nat.gcd phi n = 1 := (exists_inverse_iff hn1).mp hex
      obtain ⟨v, hv, _, _⟩ := inv_mod_ok hn1 hg
      rw [decrypt_ok_eq hw hodd hnz hd1 hv] at he
      cases he
    · intro hno
      have hg : Nat.gcd phi n ≠ 1 := fun hg1 => hno ((exists_inverse_iff hn1).mpr hg1)
      exact decrypt_noInv_eq hw hodd hnz hd1 ((inv_mod_error_iff hn1).mpr hg)
  · intro hg
    obtain ⟨v, hv, hvm, hvlt⟩ := inv_mod_ok hn1 hg
    refine ⟨v, ?_, decrypt_ok_eq hw hodd hnz hd1 hv⟩
    unfold Nat.ModEq
    rw [hvm, Nat.mod_eq_of_lt hn1]

/-- C3 (witness): the amended theorem applied at `c = 2`, `N = 5`,
`phi = 3`, where all side checks hold and `gcd(3, 5) = 1`. -/
theorem decrypt_steps_wit :
    ∃ d3, 3 * d3 ≡ 1 [MOD 5] ∧
      decrypt 2 5 3 = .ok ((2 ^ 3 % (5 * 5) - 1) / 5 % 5 * d3 % 5) :=
  (decrypt_steps 2 5 3 (by decide) (by decide) (by decide) (by decide)).2 (by decide)

/-- C4: aggregation is the left-fold of multiplication mod `N^2` starting
from the multiplicative identity 1 over the ciphertext sequence; for every
permutation of the sequence the aggregate is the same; and the aggregate of
the empty sequence is 1, which (for a working key: `N` odd, `1 < N`, `N^2`
within width, `phi` invertible mod `N`) decrypts to plaintext 0. -/
theorem aggregate_fold_perm (cs cs' : List ℕ) (M n phi : ℕ) (hperm : cs.Perm cs')
    (hn : 1 < n) (hodd : n % 2 = 1) (hw : n * n < 2 ^ 128) (hco : Nat.gcd phi n = 1) :
    aggregate cs M = cs.foldl (fun acc vote => acc * vote % M) 1 ∧
    aggregate cs M = aggregate cs' M ∧
    aggregate ([] : List ℕ) M = 1 ∧
    decrypt (aggregate ([] : List ℕ) (n * n)) n phi = .ok 0 := by
  refine ⟨rfl, foldl_mul_mod_perm hperm 1, rfl, ?_⟩
  show decrypt 1 n phi = .ok 0
  exact decrypt_one hn hodd hw hco

/-- C4 (witness): the aggregate of `[648, 1202]` modulo `1225` equals that
of the permuted `[1202, 648]`, and the empty aggregate decrypts to 0 at
the key `N = 35`, `phi = 24`. -/
theorem aggregate_fold_perm_wit :
    aggregate [648, 1202] 1225 = aggregate [1202, 648] 1225 ∧
    decrypt (aggregate ([] : List ℕ) (35 * 35)) 35 24 = .ok 0 := by
  have h := aggregate_fold_perm [648, 1202] [1202, 648] 1225 35 24 (by decide)
    (by decide) (by decide) (by decide) (by decide)
  exact ⟨h.2.1, h.2.2.2⟩

/-- C5: `encode` computes `bits = floor(log2 voters)` and
`shift = idx * bits`, requires `shift ≤ bits * candidates` (failing with
`EncodingOverflow` otherwise), and returns `1 <<< shift`; in particular
with 16 voters and 3 candidates, candidate 0 encodes to 1 and candidate 1
encodes to 16. -/
theorem encode_spec (idx voters cands : ℕ) (hv : 0 < voters) :
    (idx * Nat.log 2 voters ≤ Nat.log 2 voters * cands →
      encode idx voters cands = .ok (1 <<< (idx * Nat.log 2 voters))) ∧
    (Nat.log 2 voters * cands < idx * Nat.log 2 voters →
      encode idx voters cands = .error .encodingOverflow) ∧
    encode 0 16 3 = .ok 1 ∧ encode 1 16 3 = .ok 16 := by
  have hlog : ilog2 voters = Nat.log 2 voters := ilog2_eq_log hv
  have hne : ¬ voters = 0 := by omega
  refine ⟨?_, ?_, by decide, by decide⟩
  · intro h
    unfold encode
    rw [if_neg hne]
    simp only [hlog]
    rw [if_pos h]
  · intro h
    unfold encode
    rw [if_neg hne]
    simp only [hlog]
    rw [if_neg (by omega)]

/-- C5 (witness): the generic part of `encode_spec` applied at candidate
index 2, 16 voters, 3 candidates: `2 * 4 = 8 ≤ 12`, so the result is
`1 <<< 8 = 256`. -/
theorem encode_spec_wit : encode 2 16 3 = .ok 256 := by
  have hlog : Nat.log 2 16 = 4 := Nat.log_eq_of_pow_le_of_lt_pow (by norm_num) (by norm_num)
  have h := (encode_spec 2 16 3 (by decide)).1
  rw [hlog] at h
  have h2 := h (by norm_num)
  rw [h2]
  decide

/-- C6: `decode` computes `mask = voters - 1` and, for each candidate
index `i < candidates`, `votes[i] = (plaintext >>> (i * bits)) &&& mask`
with `bits = floor(log2 voters)`; and it fails with `Overflow` exactly
when the plaintext does not fit the 64-bit working accumulator, detected
by re-widening the truncated value and comparing with the original. -/
theorem decode_spec (p voters cands : ℕ) (hv : 0 < voters) :
    (p < 2 ^ 64 →
      decode p voters cands = .ok ((List.range cands).map fun i =>
        p >>> (i * Nat.log 2 voters) &&& (voters - 1))) ∧
    (2 ^ 64 ≤ p → decode p voters cands = .error .overflow) := by
  have hlog : ilog2 voters = Nat.log 2 voters := ilog2_eq_log hv
  have hne : ¬ voters = 0 := by omega
  constructor
  · intro h
    unfold decode
    rw [if_neg hne]
    have hmod : p % 2 ^ 64 = p := Nat.mod_eq_of_lt h
    simp only [hmod, hlog, eq_self_iff_true, if_true]
    have hcomm : ∀ i : ℕ, p >>> (Nat.log 2 voters * i) &&& (voters - 1) =
        p >>> (i * Nat.log 2 voters) &&& (voters - 1) := by
      intro i
      rw [mul_comm]
    simp only [hcomm]
  · intro h
    unfold decode
    rw [if_neg hne]
    have hlt : p % 2 ^ 64 < 2 ^ 64 := Nat.mod_lt p (by norm_num)
    have hne2 : ¬ p = p % 2 ^ 64 := fun heq =>
      Nat.ne_of_lt (lt_of_lt_of_le hlt h) heq.symm
    rw [if_neg hne2]

/-- C6 (witness): decoding the plaintext 35 (3 votes for candidate 0,
2 for candidate 1) with 16 voters and 3 candidates gives `[3, 2, 0]`. -/
theorem decode_spec_wit : decode 35 16 3 = .ok [3, 2, 0] := by
  have hlog : Nat.log 2 16 = 4 := Nat.log_eq_of_pow_le_of_lt_pow (by norm_num) (by norm_num)
  have h := (decode_spec 35 16 3 (by decide)).1 (by norm_num)
  rw [h, hlog]
  decide

/-- C7 (counterexample): submitting the ciphertext 70 (divisible by
`N = 35`) with totient 24: decryption of the submitted ciphertext fails,
yet the VoteStack is *not* unchanged — the failed ballot is in the stack,
because the source pushes (line 174) before decrypting (line 176). -/
theorem submit_order_cex :
    (submit [] 70 35 24).2 = .error .underflow ∧
    (submit [] 70 35 24).1 = [70] ∧ (submit [] 70 35 24).1 ≠ [] := by
  refine ⟨by decide, by decide, by decide⟩

/-- C7 (amended): for every submit of a ciphertext in the Collecting
state, the ciphertext is appended to the VoteStack *before* the individual
plaintext is decrypted and displayed; consequently, if decryption of the
submitted ciphertext fails, the VoteStack is not unchanged — it ends with
the failed ballot. -/
theorem submit_appends_first (stack : List ℕ) (c n phi : ℕ) :
    (submit stack c n phi).1 = stack ++ [c] ∧
    (∀ e, (submit stack c n phi).2 = .error e → (submit stack c n phi).1 ≠ stack) := by
  refine ⟨rfl, fun e _ => ?_⟩
  show stack ++ [c] ≠ stack
  intro hcontra
  have hlen := congrArg List.length hcontra
  simp at hlen

/-- C7 (witness): the amended theorem at a concrete failing submission:
the stack `[5]` grows to `[5, 70]` even though decryption of 70 fails. -/
theorem submit_appends_first_wit : (submit [5] 70 35 24).1 ≠ [5] :=
  (submit_appends_first [5] 70 35 24).2 .underflow (by decide)


/-- C8: reconciliation classifies the session as surplus exactly when the
decoded vote total exceeds the ballot count, exact match exactly when they
are equal, and deficit exactly when it is smaller (a total function —
never a failure); and for an empty VoteStack the whole finalization
pipeline reports an all-zero tally with exact match against 0 ballots
(for a working key and a positive voter count). -/
theorem reconcile_spec :
    (∀ votes n_voters : ℕ,
      (reconcile votes n_voters = .surplus (votes - n_voters) ↔ n_voters < votes) ∧
      (reconcile votes n_voters = .exact ↔ votes = n_voters) ∧
      (reconcile votes n_voters = .deficit (n_voters - votes) ↔ votes < n_voters)) ∧
    (∀ n phi voters cands : ℕ, 1 < n → n % 2 = 1 → n * n < 2 ^ 128 →
      Nat.gcd phi n = 1 → 0 < voters →
      finalize ([] : List ℕ) n phi voters cands = .ok (List.replicate cands 0, .exact)) := by
  constructor
  · intro votes n_voters
    unfold reconcile
    split_ifs with h1 h2
    · refine ⟨⟨fun _ => h1, fun _ => rfl⟩, ?_, ?_⟩
      · exact ⟨fun hc => by simp at hc, fun hc => by omega⟩
      · exact ⟨fun hc => by simp at hc, fun hc => by omega⟩
    · refine ⟨?_, ⟨fun _ => h2, fun _ => rfl⟩, ?_⟩
      · exact ⟨fun hc => by simp at hc, fun hc => by omega⟩
      · exact ⟨fun hc => by simp at hc, fun hc => by omega⟩
    · refine ⟨?_, ?_, ⟨fun _ => by omega, fun _ => rfl⟩⟩
      · exact ⟨fun hc => by simp at hc, fun hc => by omega⟩
      · exact ⟨fun hc => by simp at hc, fun hc => by omega⟩
  · intro n phi voters cands hn hodd hw hco hv
    have hMnz : ¬ n * n = 0 := by positivity
    have hdecrypt : decrypt (aggregate ([] : List ℕ) (n * n)) n phi = .ok 0 := by
      show decrypt 1 n phi = .ok 0
      exact decrypt_one hn hodd hw hco
    have hdecode : decode 0 voters cands = .ok (List.replicate cands 0) := by
      unfold decode
      rw [if_neg (by omega)]
      simp only [Nat.zero_mod, eq_self_iff_true, if_true]
      refine congrArg Except.ok ?_
      refine List.eq_replicate_iff.mpr ⟨by simp, ?_⟩
      intro b hb
      simp only [List.mem_map] at hb
      obtain ⟨i, _, hi⟩ := hb
      rw [← hi]
      simp [Nat.zero_shiftRight, Nat.zero_and]
    have hsum : (List.replicate cands (0 : ℕ)).sum = 0 := by
      simp [List.sum_replicate]
    unfold finalize checked_square checked_mul to_nz
    rw [if_pos hw]
    simp only [ne_eq, hMnz, not_false_iff, if_pos, hdecrypt, hdecode, hsum,
      List.length_nil]
    rfl

/-- C8 (witness): the classification and the empty-stack pipeline at
`N = 35`, `phi = 24`, 16 voters, 3 candidates. -/
theorem reconcile_spec_wit :
    reconcile 7 5 = .surplus 2 ∧
    finalize ([] : List ℕ) 35 24 16 3 = .ok ([0, 0, 0], .exact) := by
  constructor
  · exact ((reconcile_spec.1 7 5).1).mpr (by omega)
  · have h := reconcile_spec.2 35 24 16 3 (by decide) (by decide) (by decide)
      (by decide) (by decide)
    simpa using h

/-- C9 (counterexample): "for every two distinct primes of equal bit
length, `N = p*q` and `N^2` are both odd" fails at `p = 2`, `q = 3`: both
are primes of bit length 2, but `N = 6` is even (and the `to_odd` guard of
the source rejects `N^2 = 36`). -/
theorem odd_modulus_cex :
    Nat.Prime 2 ∧ Nat.Prime 3 ∧ (2 : ℕ) ≠ 3 ∧ bit_length 2 = bit_length 3 ∧
    ¬ Odd ((2 : ℕ) * 3) ∧ to_odd ((2 * 3) * (2 * 3)) = .error .invalidModulus := by
  refine ⟨by norm_num, by norm_num, by decide, by decide, by decide, by decide⟩

/-- C9 (amended): for every two distinct **odd** primes `p ≠ q` of equal
bit length, `N = p*q` and `N^2` are both odd — so the `to_odd` guard of
the source accepts `N^2`. -/
theorem odd_modulus (p q : ℕ) (hp : p.Prime) (hq : q.Prime) (hpq : p ≠ q)
    (hlen : bit_length p = bit_length q) (hp2 : p ≠ 2) (hq2 : q ≠ 2) :
    Odd (p * q) ∧ Odd ((p * q) * (p * q)) ∧
    to_odd ((p * q) * (p * q)) = .ok ((p * q) * (p * q)) := by
  have hop : Odd p := hp.odd_of_ne_two hp2
  have hoq : Odd q := hq.odd_of_ne_two hq2
  have hN : Odd (p * q) := hop.mul hoq
  have hM : Odd ((p * q) * (p * q)) := hN.mul hN
  refine ⟨hN, hM, ?_⟩
  unfold to_odd
  rw [if_pos (Nat.odd_iff.mp hM)]

/-- C9 (witness): the amended theorem at the factors `113` and `127` of
the program's hard-coded modulus (both 7-bit primes). -/
theorem odd_modulus_wit :
    Odd ((113 : ℕ) * 127) ∧ Odd (((113 : ℕ) * 127) * (113 * 127)) ∧
    to_odd ((113 * 127) * (113 * 127)) = .ok ((113 * 127) * (113 * 127)) :=
  odd_modulus 113 127 (by norm_num) (by norm_num) (by decide) (by decide)
    (by decide) (by decide)

/-- C10: for every ciphertext `c` with `c^phi ≡ 0 (mod N^2)` — in
particular any `c` divisible by `N` when `phi ≥ 2`, including `c = 0` —
`decrypt` aborts at the `d1 - 1` underflow check instead of returning a
plaintext, a failure mode beyond the `NoInverse` failure the spec lists. -/
theorem decrypt_underflow_mode (c n phi : ℕ)
    (hw : n * n < 2 ^ 128) (hodd : n % 2 = 1)
    (h0 : c ^ phi % (n * n) = 0) :
    decrypt c n phi = .error .underflow ∧ decrypt c n phi ≠ .error .noInverse ∧
    (∀ k, n ∣ k → 2 ≤ phi → k ^ phi % (n * n) = 0) := by
  have hoddM : n * n % 2 = 1 := by rw [Nat.mul_mod, hodd]
  have hnz : n ≠ 0 := by omega
  have hmain : decrypt c n phi = .error .underflow :=
    decrypt_underflow_eq hw hoddM hnz h0
  refine ⟨hmain, by rw [hmain]; simp, ?_⟩
  intro k hk hphi
  obtain ⟨a, ha⟩ := hk
  have hdvd : (n * n) ∣ k ^ phi := by
    have h1 : n * n ∣ n ^ phi := by
      have : n ^ 2 ∣ n ^ phi := pow_dvd_pow n hphi
      simpa [pow_two] using this
    have h2 : n ^ phi ∣ k ^ phi := pow_dvd_pow_of_dvd ⟨a, ha⟩ phi
    exact dvd_trans h1 h2
  exact Nat.mod_eq_zero_of_dvd hdvd

/-- C10 (witness): `c = 70 = 2 * 35` is divisible by `N = 35` and
`phi = 24 ≥ 2`, so `70^24 ≡ 0 (mod 35^2)` and decryption aborts at the
underflow check. -/
theorem decrypt_underflow_mode_wit :
    decrypt 70 35 24 = .error .underflow ∧ decrypt 70 35 24 ≠ .error .noInverse :=
  ⟨(decrypt_underflow_mode 70 35 24 (by decide) (by decide) (by decide)).1,
   (decrypt_underflow_mode 70 35 24 (by decide) (by decide) (by decide)).2.1⟩


end Evoting
